import Mathlib

set_option maxHeartbeats 1600000
set_option maxRecDepth 8000

/-!
Shallow embedding of `goconfig.go` (package goconfig, a gitconfig-style
scanner) and proofs about it.  Go strings are modelled as `List Char`
(the byte-to-rune decoding done by the entry point is outside the scanner
proper), the parser struct as `PState`, and each `for` loop as a
well-founded recursive function whose accumulator variables become
parameters.
-/

namespace Goconfig

/-- The parser state of `type parser struct` (goconfig.go lines 8-12):
remaining input code points, the 1-based line counter, and the
end-of-input flag.  The Go field `linenr` is a `uint`; it starts at 1,
is only ever decremented immediately before returning an error (so at
most once per run), hence `Nat` subtraction is faithful. -/
structure PState where
  runes : List Char
  linenr : Nat
  eof : Bool
deriving Repr, DecidableEq

/-- Modelled from the spec: the error sentinels `ErrInvalidKeyChar`,
`ErrUnexpectedEOF`, ... referenced by goconfig.go are declared in a file
of the repository that is not part of the provided source; spec section 7
lists the eight error kinds, which we model as an enumeration. -/
inductive Err where
  | invalidKeyChar
  | unexpectedEOF
  | invalidSectionChar
  | sectionNewLine
  | missingStartQuote
  | missingClosingBracket
  | invalidEscapeSequence
  | unfinishedQuote
deriving Repr, DecidableEq

/-- Go `unicode.IsSpace` (goconfig.go line 244-246 delegates to it),
transcribed exactly: the Latin-1 special cases plus the White_Space
table entries above U+00FF. -/
def isspace (c : Char) : Bool :=
  c = ' ' || c = '\t' || c = '\n' || c = '\x0b' || c = '\x0c' || c = '\r' ||
  c = '\x85' || c = '\xa0' ||
  c = '\u1680' || ('\u2000' ≤ c && c ≤ '\u200a') ||
  c = '\u2028' || c = '\u2029' || c = '\u202f' || c = '\u205f' || c = '\u3000'

/-- Go `unicode.IsLetter` (goconfig.go line 256-258), transcribed exactly
on the Latin-1 range; letters above U+00FF are outside the modelled
character set (no claim exercises them). -/
def isalpha (c : Char) : Bool :=
  ('A' ≤ c && c ≤ 'Z') || ('a' ≤ c && c ≤ 'z') ||
  c = '\xaa' || c = '\xb5' || c = '\xba' ||
  ('\xc0' ≤ c && c ≤ '\xd6') || ('\xd8' ≤ c && c ≤ '\xf6') ||
  ('\xf8' ≤ c && c ≤ '\xff')

/-- Go `unicode.IsNumber` (goconfig.go line 260-262), transcribed exactly
on the Latin-1 range. -/
def isnum (c : Char) : Bool :=
  ('0' ≤ c && c ≤ '9') || c = '\xb2' || c = '\xb3' || c = '\xb9' ||
  ('\xbc' ≤ c && c ≤ '\xbe')

/-- goconfig.go line 252-254. -/
def isalnum (c : Char) : Bool := isalpha c || isnum c

/-- goconfig.go line 248-250. -/
def iskeychar (c : Char) : Bool := isalnum c || c = '-'

/-- Go `unicode.ToLower` (goconfig.go line 240-242), transcribed exactly
on the Latin-1 range (ASCII A-Z and the accented uppercase block other
than the multiplication sign map 32 code points up; everything else in
Latin-1 is fixed). -/
def lower (c : Char) : Char :=
  if 'A' ≤ c && c ≤ 'Z' then Char.ofNat (c.toNat + 32)
  else if ('\xc0' ≤ c && c ≤ '\xde') && c ≠ '\xd7' then Char.ofNat (c.toNat + 32)
  else c

/-- goconfig.go lines 62-85, `func (cf *parser) nextRune() rune`.
The Go check at lines 78-82 (`len == 0` after the CRLF collapse) is
unreachable, because the collapse fires only when at least two runes
remain; it is kept here as the `[]` arm of the second match. -/
def nextRune (st : PState) : Char × PState :=
  match st.runes with
  | [] => ('\n', { st with eof := true })
  | c0 :: rest0 =>
    let cr : Char × List Char :=
      if c0 = '\r' ∧ rest0.head? = some '\n' then ('\n', rest0)
      else (c0, c0 :: rest0)
    let lin := if cr.1 = '\n' then st.linenr + 1 else st.linenr
    match cr.2 with
    | [] => ('\n', { runes := [], linenr := lin + 1, eof := true })
    | _ :: rs => (cr.1, { st with runes := rs, linenr := lin })

/-- Termination measure: number of remaining code points, plus one for
the pending synthetic newline while the end flag is unset. -/
def psize (st : PState) : Nat := st.runes.length + (if st.eof then 0 else 1)

/-- goconfig.go lines 123-144: the quoted-part loop of
`getExtendedSectionKey` (`config: [BaseSection "ExtendedSection"]`),
together with the closing-bracket check that follows it (lines 141-143).
The Go loop accumulator `name` becomes a parameter.

Every Go `for` loop in this file is modelled with an explicit `fuel`
parameter, decremented once per iteration; `none` means the fuel ran
out.  The fuel-sufficiency theorems below show that a fuel of
`2 * psize st + 2` never runs out, so the fuel device adds nothing to
the modelled behaviour. -/
def getExtendedSectionKeyQuoted : Nat → List Char → PState →
    Option (Except Err (List Char) × PState)
  | 0, _, _ => none
  | fuel + 1, name, st =>
    match nextRune st with
    | (c, st1) =>
      if c = '\n' then
        some (.error .sectionNewLine, { st1 with linenr := st1.linenr - 1 })
      else if c = '"' then
        match nextRune st1 with
        | (c2, st2) =>
          if c2 = ']' then some (.ok name, st2)
          else some (.error .missingClosingBracket, st2)
      else if c = '\\' then
        match nextRune st1 with
        | (c2, st2) =>
          if c2 = '\n' then
            some (.error .sectionNewLine, { st2 with linenr := st2.linenr - 1 })
          else getExtendedSectionKeyQuoted fuel (name ++ [c2]) st2
      else getExtendedSectionKeyQuoted fuel (name ++ [c]) st1

/-- goconfig.go lines 108-122: the leading loop of
`getExtendedSectionKey` (whitespace between the base name and the
opening quote), the `MissingStartQuote` check, and the `name += "."`
of line 122; the quoted part continues in
`getExtendedSectionKeyQuoted`. -/
def getExtendedSectionKey : Nat → List Char → Char → PState →
    Option (Except Err (List Char) × PState)
  | 0, _, _, _ => none
  | fuel + 1, name, c, st =>
    if c = '\n' then
      some (.error .sectionNewLine, { st with linenr := st.linenr - 1 })
    else
      match nextRune st with
      | (c1, st1) =>
        if isspace c1 then getExtendedSectionKey fuel name c1 st1
        else if c1 ≠ '"' then some (.error .missingStartQuote, st1)
        else getExtendedSectionKeyQuoted fuel (name ++ ['.']) st1

/-- goconfig.go lines 87-105, `getSectionKey`; the Go loop accumulator
`name` becomes a parameter (the function is entered with `[]`,
see `getSectionKey`). -/
def getSectionKeyLoop : Nat → List Char → PState →
    Option (Except Err (List Char) × PState)
  | 0, _, _ => none
  | fuel + 1, name, st =>
    match nextRune st with
    | (c, st1) =>
      if st1.eof then some (.error .unexpectedEOF, st1)
      else if c = ']' then some (.ok name, st1)
      else if isspace c then getExtendedSectionKey fuel name c st1
      else if ¬ iskeychar c ∧ c ≠ '.' then some (.error .invalidSectionChar, st1)
      else getSectionKeyLoop fuel (name ++ [lower c]) st1

/-- goconfig.go line 87-88: `getSectionKey` starts its loop with an
empty accumulator. -/
def getSectionKey (fuel : Nat) (st : PState) :
    Option (Except Err (List Char) × PState) :=
  getSectionKeyLoop fuel [] st

/-- goconfig.go lines 180-238, `parseValue`; the Go locals `quote`,
`comment`, `space`, `value` become parameters (the function is entered
with all of them zeroed, see `parseValue`). -/
def parseValueLoop : Nat → Bool → Bool → Nat → List Char → PState →
    Option (Except Err (List Char) × PState)
  | 0, _, _, _, _, _ => none
  | fuel + 1, quote, comment, space, value, st =>
    match nextRune st with
    | (c, st1) =>
      if c = '\n' then
        if quote then
          some (.error .unfinishedQuote, { st1 with linenr := st1.linenr - 1 })
        else some (.ok value, st1)
      else if comment then parseValueLoop fuel quote comment space value st1
      else if isspace c ∧ ¬ quote then
        parseValueLoop fuel quote comment
          (if value.length > 0 then space + 1 else space) value st1
      else if ¬ quote ∧ (c = ';' ∨ c = '#') then
        parseValueLoop fuel quote true space value st1
      else if c = '\\' then
        match nextRune st1 with
        | (c2, st2) =>
          if c2 = '\n' then
            parseValueLoop fuel quote comment 0 (value ++ List.replicate space ' ') st2
          else if c2 = 't' then
            parseValueLoop fuel quote comment 0
              (value ++ List.replicate space ' ' ++ ['\t']) st2
          else if c2 = 'b' then
            parseValueLoop fuel quote comment 0
              (value ++ List.replicate space ' ' ++ ['\x08']) st2
          else if c2 = 'n' then
            parseValueLoop fuel quote comment 0
              (value ++ List.replicate space ' ' ++ ['\n']) st2
          else some (.error .invalidEscapeSequence, st2)
      else if c = '"' then
        parseValueLoop fuel (!quote) comment 0 (value ++ List.replicate space ' ') st1
      else
        parseValueLoop fuel quote comment 0
          (value ++ List.replicate space ' ' ++ [c]) st1

/-- goconfig.go lines 180-187: `parseValue` enters its loop with
`quote`, `comment` unset, `space` zero and an empty value. -/
def parseValue (fuel : Nat) (st : PState) :
    Option (Except Err (List Char) × PState) :=
  parseValueLoop fuel false false 0 [] st

/-- goconfig.go lines 152-162: the key-name loop of `getValue`; `name`
models the Go `*string` accumulator.  Returns the first character that
stopped the loop together with the extended name and the state. -/
def getValueKeyLoop : Nat → List Char → PState →
    Option (Char × List Char × PState)
  | 0, _, _ => none
  | fuel + 1, name, st =>
    match nextRune st with
    | (c, st1) =>
      if st1.eof then some (c, name, st1)
      else if ¬ iskeychar c then some (c, name, st1)
      else getValueKeyLoop fuel (name ++ [lower c]) st1

/-- goconfig.go lines 164-166: the blank-skipping loop of `getValue`
(`for c == ' ' || c == '\t'`). -/
def getValueSpaceLoop : Nat → Char → PState → Option (Char × PState)
  | 0, _, _ => none
  | fuel + 1, c, st =>
    if c = ' ' ∨ c = '\t' then
      match nextRune st with
      | (c1, st1) => getValueSpaceLoop fuel c1 st1
    else some (c, st)

/-- goconfig.go lines 147-178, `getValue`: reads the rest of the key
name, skips inline blanks, then either ends the statement at a newline
(empty value), fails with `InvalidKeyChar` on anything but `=`, or
parses the value.  Returns the result, the final key name (the Go
`*name` out-parameter), and the state. -/
def getValue (fuel : Nat) (name : List Char) (st : PState) :
    Option (Except Err (List Char) × List Char × PState) :=
  match getValueKeyLoop fuel name st with
  | none => none
  | some (c, name1, st1) =>
    match getValueSpaceLoop fuel c st1 with
    | none => none
    | some (c2, st2) =>
      if c2 ≠ '\n' then
        if c2 ≠ '=' then some (.error .invalidKeyChar, name1, st2)
        else
          match parseValue fuel st2 with
          | none => none
          | some (.error e, st3) => some (.error e, name1, st3)
          | some (.ok value, st3) => some (.ok value, name1, st3)
      else some (.ok [], name1, st2)

/-- The Go `map[string]string` of the driver, modelled as an
association list whose keys stay unique: `cfg[key] = value`
(goconfig.go line 58) updates in place or appends. -/
abbrev Cfg := List (List Char × List Char)

/-- Go `cfg[key] = value`: replace the entry in place if the key is
present, else append. -/
def insertKV (cfg : Cfg) (k v : List Char) : Cfg :=
  if cfg.any (fun p => p.1 == k) then
    cfg.map (fun p => if p.1 == k then (k, v) else p)
  else cfg ++ [(k, v)]

/-- goconfig.go lines 21-60, `parse`: the top-level driver loop; the Go
locals `comment`, `cfg`, `name` become parameters. -/
def parseLoop : Nat → Bool → Cfg → List Char → PState →
    Option (Cfg × Option Err × PState)
  | 0, _, _, _, _ => none
  | fuel + 1, comment, cfg, name, st =>
    match nextRune st with
    | (c, st1) =>
      if c = '\n' then
        if st1.eof then some (cfg, none, st1)
        else parseLoop fuel false cfg name st1
      else if comment ∨ isspace c then parseLoop fuel comment cfg name st1
      else if c = '#' ∨ c = ';' then parseLoop fuel true cfg name st1
      else if c = '[' then
        match getSectionKey fuel st1 with
        | none => none
        | some (.error e, st2) => some (cfg, some e, st2)
        | some (.ok sec, st2) => parseLoop fuel comment cfg (sec ++ ['.']) st2
      else if ¬ isalpha c then some (cfg, some .invalidKeyChar, st1)
      else
        match getValue fuel (name ++ [c]) st1 with
        | none => none
        | some (.error e, _, st2) => some (cfg, some e, st2)
        | some (.ok value, key1, st2) =>
          parseLoop fuel comment (insertKV cfg key1 value) name st2

/-- goconfig.go lines 21-26: `parse` enters the driver loop with
`comment` unset, an empty map and an empty section prefix. -/
def parse (fuel : Nat) (st : PState) : Option (Cfg × Option Err × PState) :=
  parseLoop fuel false [] [] st

/-- goconfig.go lines 15-19, `Parse`: builds the initial state (line
counter 1), runs the driver, and returns the mapping, the final line
counter and the error (`none` on success).  The fuel `2 * len + 4`
equals `2 * psize + 2` of the initial state; `parseLoop_total` below
proves it sufficient, so the `none` fallback is unreachable. -/
def Parse (bytes : List Char) : Cfg × Nat × Option Err :=
  match parse (2 * bytes.length + 4) ⟨bytes, 1, false⟩ with
  | some (cfg, err, st) => (cfg, st.linenr, err)
  | none => ([], 0, none)

/-- The re-serialization of the claim: one `key = value` line per
entry, keys in their dotted form, values verbatim. -/
def serEntry (k v : List Char) : List Char := k ++ ' ' :: '=' :: ' ' :: (v ++ ['\n'])

/-- Serialize a mapping as consecutive `key = value` lines. -/
def serialize : Cfg → List Char
  | [] => []
  | p :: m => serEntry p.1 p.2 ++ serialize m

/-- A key character that re-parses to itself: a key character that the
lower-casing of `getValue` leaves unchanged. -/
def plainKeyChar (c : Char) : Prop := iskeychar c = true ∧ lower c = c

/-- A key that re-parses to itself: a letter followed by
lower-case-stable key characters (no dots, no uppercase tail). -/
def plainKey : List Char → Prop
  | [] => False
  | c :: rest => isalpha c = true ∧ ∀ d ∈ rest, plainKeyChar d

/-- A value character that re-parses verbatim: not whitespace and not
one of the four special characters, or the plain space. -/
def plainValChar (c : Char) : Prop :=
  (isspace c = false ∧ c ≠ '"' ∧ c ≠ '\\' ∧ c ≠ ';' ∧ c ≠ '#') ∨ c = ' '

/-- A value that re-parses verbatim: plain characters with no leading
or trailing space. -/
def plainValue (v : List Char) : Prop :=
  (∀ c ∈ v, plainValChar c) ∧ v.head? ≠ some ' ' ∧ v.getLast? ≠ some ' '

/-- The key list of a mapping. -/
def keysOf (cfg : Cfg) : List (List Char) := cfg.map Prod.fst

instance (c : Char) : Decidable (plainKeyChar c) :=
  decidable_of_iff (iskeychar c = true ∧ lower c = c) Iff.rfl

instance : (k : List Char) → Decidable (plainKey k)
  | [] => isFalse (fun h => h)
  | c :: rest =>
    decidable_of_iff (isalpha c = true ∧ ∀ d ∈ rest, plainKeyChar d) Iff.rfl

instance (c : Char) : Decidable (plainValChar c) :=
  decidable_of_iff
    ((isspace c = false ∧ c ≠ '"' ∧ c ≠ '\\' ∧ c ≠ ';' ∧ c ≠ '#') ∨ c = ' ') Iff.rfl

instance (v : List Char) : Decidable (plainValue v) :=
  decidable_of_iff
    ((∀ c ∈ v, plainValChar c) ∧ v.head? ≠ some ' ' ∧ v.getLast? ≠ some ' ') Iff.rfl

theorem nextRune_nil (lin : Nat) (e : Bool) :
    nextRune ⟨[], lin, e⟩ = ('\n', ⟨[], lin, true⟩) := by
  simp [nextRune]

theorem nextRune_cons (c : Char) (l : List Char) (lin : Nat) (e : Bool)
    (hr : c ≠ '\r') (hn : c ≠ '\n') :
    nextRune ⟨c :: l, lin, e⟩ = (c, ⟨l, lin, e⟩) := by
  simp [nextRune, hr, hn]

theorem nextRune_newline (l : List Char) (lin : Nat) (e : Bool) :
    nextRune ⟨'\n' :: l, lin, e⟩ = ('\n', ⟨l, lin + 1, e⟩) := by
  simp [nextRune]

theorem nextRune_crlf (l : List Char) (lin : Nat) (e : Bool) :
    nextRune ⟨'\r' :: '\n' :: l, lin, e⟩ = ('\n', ⟨l, lin + 1, e⟩) := by
  simp [nextRune]

theorem nextRune_cr (l : List Char) (lin : Nat) (e : Bool)
    (h : l.head? ≠ some '\n') :
    nextRune ⟨'\r' :: l, lin, e⟩ = ('\r', ⟨l, lin, e⟩) := by
  cases l with
  | nil => simp [nextRune]
  | cons a l' =>
    have ha : a ≠ '\n' := by simpa using h
    simp [nextRune, ha]

theorem nextRune_psize_le (st : PState) : psize (nextRune st).2 ≤ psize st := by
  rcases st with ⟨runes, lin, e⟩
  cases runes with
  | nil => rw [nextRune_nil]; cases e <;> simp [psize]
  | cons c l =>
    by_cases hr : c = '\r'
    · subst hr
      cases l with
      | nil => rw [nextRune_cr _ _ _ (by simp)] <;> cases e <;> simp [psize]
      | cons a l' =>
        by_cases ha : a = '\n'
        · subst ha; rw [nextRune_crlf]; cases e <;> simp [psize] <;> omega
        · rw [nextRune_cr _ _ _ (by simpa using ha)]; cases e <;> simp [psize]
    · by_cases hn : c = '\n'
      · subst hn; rw [nextRune_newline]; cases e <;> simp [psize]
      · rw [nextRune_cons _ _ _ _ hr hn]; cases e <;> simp [psize]

theorem nextRune_psize_lt_of_ne (st : PState) (h : (nextRune st).1 ≠ '\n') :
    psize (nextRune st).2 < psize st := by
  rcases st with ⟨runes, lin, e⟩
  cases runes with
  | nil => rw [nextRune_nil] at h; simp at h
  | cons c l =>
    by_cases hr : c = '\r'
    · subst hr
      cases l with
      | nil => rw [nextRune_cr _ _ _ (by simp)] <;> cases e <;> simp [psize]
      | cons a l' =>
        by_cases ha : a = '\n'
        · subst ha; rw [nextRune_crlf] at h; simp at h
        · rw [nextRune_cr _ _ _ (by simpa using ha)]; cases e <;> simp [psize]
    · by_cases hn : c = '\n'
      · subst hn; rw [nextRune_newline] at h; simp at h
      · rw [nextRune_cons _ _ _ _ hr hn]; cases e <;> simp [psize]

theorem nextRune_psize_lt_of_not_eof (st : PState)
    (h : (nextRune st).2.eof = false) : psize (nextRune st).2 < psize st := by
  rcases st with ⟨runes, lin, e⟩
  cases runes with
  | nil => rw [nextRune_nil] at h; simp at h
  | cons c l =>
    by_cases hr : c = '\r'
    · subst hr
      cases l with
      | nil =>
        rw [nextRune_cr _ _ _ (by simp)] at h ⊢
        simp at h; subst h; simp [psize]
      | cons a l' =>
        by_cases ha : a = '\n'
        · subst ha
          rw [nextRune_crlf] at h ⊢
          simp at h; subst h; simp [psize]
        · rw [nextRune_cr _ _ _ (by simpa using ha)] at h ⊢
          simp at h; subst h; simp [psize]
    · by_cases hn : c = '\n'
      · subst hn
        rw [nextRune_newline] at h ⊢
        simp at h; subst h; simp [psize]
      · rw [nextRune_cons _ _ _ _ hr hn] at h ⊢
        simp at h; subst h; simp [psize]

theorem psize_with_linenr (st : PState) (n : Nat) :
    psize { st with linenr := n } = psize st := rfl

theorem getExtendedSectionKeyQuoted_psize_le (fuel : Nat) :
    ∀ name st r st', getExtendedSectionKeyQuoted fuel name st = some (r, st') →
      psize st' ≤ psize st := by
  induction fuel with
  | zero => intro name st r st' h; simp [getExtendedSectionKeyQuoted] at h
  | succ fuel ih =>
    intro name st r st' h
    rcases h1 : nextRune st with ⟨c, st1⟩
    have hle1 : psize st1 ≤ psize st := by
      have h' := nextRune_psize_le st; rw [h1] at h'; exact h'
    rcases h2 : nextRune st1 with ⟨c2, st2⟩
    have hle2 : psize st2 ≤ psize st1 := by
      have h' := nextRune_psize_le st1; rw [h2] at h'; exact h'
    simp only [getExtendedSectionKeyQuoted, h1, h2] at h
    split_ifs at h <;>
      first
        | (simp only [Option.some.injEq, Prod.mk.injEq] at h
           obtain ⟨-, rfl⟩ := h
           try simp only [psize_with_linenr]
           omega)
        | (exact le_trans (ih _ _ _ _ h) (by omega))

theorem getExtendedSectionKey_psize_le (fuel : Nat) :
    ∀ name c st r st', getExtendedSectionKey fuel name c st = some (r, st') →
      psize st' ≤ psize st := by
  induction fuel with
  | zero => intro name c st r st' h; simp [getExtendedSectionKey] at h
  | succ fuel ih =>
    intro name c st r st' h
    rcases h1 : nextRune st with ⟨c1, st1⟩
    have hle1 : psize st1 ≤ psize st := by
      have h' := nextRune_psize_le st; rw [h1] at h'; exact h'
    simp only [getExtendedSectionKey, h1] at h
    split_ifs at h <;>
      first
        | (simp only [Option.some.injEq, Prod.mk.injEq] at h
           obtain ⟨-, rfl⟩ := h
           try simp only [psize_with_linenr]
           omega)
        | (exact le_trans (ih _ _ _ _ _ h) (by omega))
        | (exact le_trans (getExtendedSectionKeyQuoted_psize_le _ _ _ _ _ h) (by omega))

theorem getSectionKeyLoop_psize_le (fuel : Nat) :
    ∀ name st r st', getSectionKeyLoop fuel name st = some (r, st') →
      psize st' ≤ psize st := by
  induction fuel with
  | zero => intro name st r st' h; simp [getSectionKeyLoop] at h
  | succ fuel ih =>
    intro name st r st' h
    rcases h1 : nextRune st with ⟨c, st1⟩
    have hle1 : psize st1 ≤ psize st := by
      have h' := nextRune_psize_le st; rw [h1] at h'; exact h'
    simp only [getSectionKeyLoop, h1] at h
    split_ifs at h <;>
      first
        | (simp only [Option.some.injEq, Prod.mk.injEq] at h
           obtain ⟨-, rfl⟩ := h
           try simp only [psize_with_linenr]
           omega)
        | (exact le_trans (ih _ _ _ _ h) (by omega))
        | (exact le_trans (getExtendedSectionKey_psize_le _ _ _ _ _ _ h) (by omega))

theorem getSectionKey_psize_le (fuel : Nat) (st : PState) (r : Except Err (List Char))
    (st' : PState) (h : getSectionKey fuel st = some (r, st')) :
    psize st' ≤ psize st :=
  getSectionKeyLoop_psize_le fuel [] st r st' h

theorem parseValueLoop_psize_le (fuel : Nat) :
    ∀ quote comment space value st r st',
      parseValueLoop fuel quote comment space value st = some (r, st') →
      psize st' ≤ psize st := by
  induction fuel with
  | zero => intro q cm sp v st r st' h; simp [parseValueLoop] at h
  | succ fuel ih =>
    intro q cm sp v st r st' h
    rcases h1 : nextRune st with ⟨c, st1⟩
    have hle1 : psize st1 ≤ psize st := by
      have h' := nextRune_psize_le st; rw [h1] at h'; exact h'
    rcases h2 : nextRune st1 with ⟨c2, st2⟩
    have hle2 : psize st2 ≤ psize st1 := by
      have h' := nextRune_psize_le st1; rw [h2] at h'; exact h'
    simp only [parseValueLoop, h1, h2] at h
    split_ifs at h <;>
      first
        | (simp only [Option.some.injEq, Prod.mk.injEq] at h
           obtain ⟨-, rfl⟩ := h
           try simp only [psize_with_linenr]
           omega)
        | (exact le_trans (ih _ _ _ _ _ _ _ h) (by omega))

theorem parseValue_psize_le (fuel : Nat) (st : PState) (r : Except Err (List Char))
    (st' : PState) (h : parseValue fuel st = some (r, st')) :
    psize st' ≤ psize st :=
  parseValueLoop_psize_le fuel false false 0 [] st r st' h

theorem getValueKeyLoop_psize_le (fuel : Nat) :
    ∀ name st c' nm' st', getValueKeyLoop fuel name st = some (c', nm', st') →
      psize st' ≤ psize st := by
  induction fuel with
  | zero => intro name st c' nm' st' h; simp [getValueKeyLoop] at h
  | succ fuel ih =>
    intro name st c' nm' st' h
    rcases h1 : nextRune st with ⟨c, st1⟩
    have hle1 : psize st1 ≤ psize st := by
      have h' := nextRune_psize_le st; rw [h1] at h'; exact h'
    simp only [getValueKeyLoop, h1] at h
    split_ifs at h <;>
      first
        | (simp only [Option.some.injEq, Prod.mk.injEq] at h
           obtain ⟨-, -, rfl⟩ := h
           omega)
        | (exact le_trans (ih _ _ _ _ _ h) (by omega))

theorem getValueSpaceLoop_psize_le (fuel : Nat) :
    ∀ c st c' st', getValueSpaceLoop fuel c st = some (c', st') →
      psize st' ≤ psize st := by
  induction fuel with
  | zero => intro c st c' st' h; simp [getValueSpaceLoop] at h
  | succ fuel ih =>
    intro c st c' st' h
    rcases h1 : nextRune st with ⟨c1, st1⟩
    have hle1 : psize st1 ≤ psize st := by
      have h' := nextRune_psize_le st; rw [h1] at h'; exact h'
    simp only [getValueSpaceLoop, h1] at h
    split_ifs at h <;>
      first
        | (simp only [Option.some.injEq, Prod.mk.injEq] at h
           obtain ⟨-, rfl⟩ := h
           omega)
        | (exact le_trans (ih _ _ _ _ h) (by omega))

theorem getValue_psize_le (fuel : Nat) (name : List Char) (st : PState)
    (r : Except Err (List Char)) (nm' : List Char) (st' : PState)
    (h : getValue fuel name st = some (r, nm', st')) : psize st' ≤ psize st := by
  rcases hk : getValueKeyLoop fuel name st with _ | ⟨c, name1, st1⟩
  · simp [getValue, hk] at h
  have hk' : psize st1 ≤ psize st := getValueKeyLoop_psize_le fuel _ _ _ _ _ hk
  rcases hs : getValueSpaceLoop fuel c st1 with _ | ⟨c2, st2⟩
  · simp [getValue, hk, hs] at h
  have hs' : psize st2 ≤ psize st1 := getValueSpaceLoop_psize_le fuel _ _ _ _ hs
  simp only [getValue, hk, hs] at h
  split_ifs at h
  · simp only [Option.some.injEq, Prod.mk.injEq] at h
    obtain ⟨-, -, rfl⟩ := h; omega
  · rcases hp : parseValue fuel st2 with _ | ⟨res, st3⟩
    · simp [hp] at h
    · have hp' : psize st3 ≤ psize st2 := parseValue_psize_le fuel _ _ _ hp
      rw [hp] at h
      cases res <;> simp only [Option.some.injEq, Prod.mk.injEq] at h <;>
        (obtain ⟨-, -, rfl⟩ := h; omega)
  · simp only [Option.some.injEq, Prod.mk.injEq] at h
    obtain ⟨-, -, rfl⟩ := h; omega

theorem nextRune_le_of_pair (st : PState) (c : Char) (st1 : PState)
    (h : nextRune st = (c, st1)) : psize st1 ≤ psize st := by
  have h' := nextRune_psize_le st; rw [h] at h'; exact h'

theorem nextRune_lt_of_pair (st : PState) (c : Char) (st1 : PState)
    (h : nextRune st = (c, st1)) (hn : c ≠ '\n') : psize st1 < psize st := by
  have h' := nextRune_psize_lt_of_ne st (by rw [h]; exact hn)
  rw [h] at h'; exact h'

theorem nextRune_lt_of_pair_eof (st : PState) (c : Char) (st1 : PState)
    (h : nextRune st = (c, st1)) (he : st1.eof = false) : psize st1 < psize st := by
  have h' := nextRune_psize_lt_of_ne st
  have h'' := nextRune_psize_lt_of_not_eof st (by rw [h]; exact he)
  rw [h] at h''; exact h''

theorem getExtendedSectionKeyQuoted_total (fuel : Nat) :
    ∀ name st, 2 * psize st + 1 ≤ fuel →
      ∃ out, getExtendedSectionKeyQuoted fuel name st = some out := by
  induction fuel with
  | zero => intro name st hb; omega
  | succ fuel ih =>
    intro name st hb
    rcases h1 : nextRune st with ⟨c, st1⟩
    have hle1 := nextRune_le_of_pair st c st1 h1
    rcases h2 : nextRune st1 with ⟨c2, st2⟩
    have hle2 := nextRune_le_of_pair st1 c2 st2 h2
    simp only [getExtendedSectionKeyQuoted, h1, h2]
    split_ifs with hn hq hb' he
    · exact ⟨_, rfl⟩
    · exact ⟨_, rfl⟩
    · exact ⟨_, rfl⟩
    · exact ⟨_, rfl⟩
    · have hlt := nextRune_lt_of_pair st c st1 h1 hn
      exact ih _ _ (by omega)
    · have hlt := nextRune_lt_of_pair st c st1 h1 hn
      exact ih _ _ (by omega)

theorem getExtendedSectionKey_total (fuel : Nat) :
    ∀ name c st, 2 * psize st + (if c = '\n' then 1 else 2) ≤ fuel →
      ∃ out, getExtendedSectionKey fuel name c st = some out := by
  induction fuel with
  | zero => intro name c st hb; split_ifs at hb <;> omega
  | succ fuel ih =>
    intro name c st hb
    rcases h1 : nextRune st with ⟨c1, st1⟩
    have hle1 := nextRune_le_of_pair st c1 st1 h1
    simp only [getExtendedSectionKey, h1]
    split_ifs with hn hsp hq
    · exact ⟨_, rfl⟩
    · rw [if_neg hn] at hb
      by_cases hc1 : c1 = '\n'
      · exact ih _ _ _ (by rw [if_pos hc1]; omega)
      · have hlt := nextRune_lt_of_pair st c1 st1 h1 hc1
        exact ih _ _ _ (by rw [if_neg hc1]; omega)
    · exact ⟨_, rfl⟩
    · rw [if_neg hn] at hb
      exact getExtendedSectionKeyQuoted_total fuel _ _ (by omega)

theorem getSectionKeyLoop_total (fuel : Nat) :
    ∀ name st, 2 * psize st + 1 ≤ fuel →
      ∃ out, getSectionKeyLoop fuel name st = some out := by
  induction fuel with
  | zero => intro name st hb; omega
  | succ fuel ih =>
    intro name st hb
    rcases h1 : nextRune st with ⟨c, st1⟩
    have hle1 := nextRune_le_of_pair st c st1 h1
    simp only [getSectionKeyLoop, h1]
    split_ifs with he hbr hsp hbad
    · exact ⟨_, rfl⟩
    · exact ⟨_, rfl⟩
    · have he' : st1.eof = false := by simpa using he
      have hlt := nextRune_lt_of_pair_eof st c st1 h1 he'
      by_cases hc : c = '\n'
      · exact getExtendedSectionKey_total fuel _ _ _ (by rw [if_pos hc]; omega)
      · exact getExtendedSectionKey_total fuel _ _ _ (by rw [if_neg hc]; omega)
    · exact ⟨_, rfl⟩
    · have he' : st1.eof = false := by simpa using he
      have hlt := nextRune_lt_of_pair_eof st c st1 h1 he'
      exact ih _ _ (by omega)

theorem getSectionKey_total (fuel : Nat) (st : PState)
    (hb : 2 * psize st + 1 ≤ fuel) : ∃ out, getSectionKey fuel st = some out :=
  getSectionKeyLoop_total fuel [] st hb

theorem parseValueLoop_total (fuel : Nat) :
    ∀ quote comment space value st, 2 * psize st + 1 ≤ fuel →
      ∃ out, parseValueLoop fuel quote comment space value st = some out := by
  induction fuel with
  | zero => intro q cm sp v st hb; omega
  | succ fuel ih =>
    intro q cm sp v st hb
    rcases h1 : nextRune st with ⟨c, st1⟩
    have hle1 := nextRune_le_of_pair st c st1 h1
    rcases h2 : nextRune st1 with ⟨c2, st2⟩
    have hle2 := nextRune_le_of_pair st1 c2 st2 h2
    simp only [parseValueLoop, h1, h2]
    split_ifs with hn hq hcm hsp hcmt hesc f1 f2 f3 f4 hquo
    all_goals try exact ⟨_, rfl⟩
    all_goals have hlt := nextRune_lt_of_pair st c st1 h1 hn
    all_goals exact ih _ _ _ _ _ (by omega)

theorem parseValue_total (fuel : Nat) (st : PState)
    (hb : 2 * psize st + 1 ≤ fuel) : ∃ out, parseValue fuel st = some out :=
  parseValueLoop_total fuel false false 0 [] st hb

theorem getValueKeyLoop_total (fuel : Nat) :
    ∀ name st, 2 * psize st + 1 ≤ fuel →
      ∃ out, getValueKeyLoop fuel name st = some out := by
  induction fuel with
  | zero => intro name st hb; omega
  | succ fuel ih =>
    intro name st hb
    rcases h1 : nextRune st with ⟨c, st1⟩
    have hle1 := nextRune_le_of_pair st c st1 h1
    simp only [getValueKeyLoop, h1]
    split_ifs with he hkc
    · exact ⟨_, rfl⟩
    · have he' : st1.eof = false := by simpa using he
      have hlt := nextRune_lt_of_pair_eof st c st1 h1 he'
      exact ih _ _ (by omega)
    · exact ⟨_, rfl⟩

theorem getValueSpaceLoop_total (fuel : Nat) :
    ∀ c st, 2 * psize st + 2 ≤ fuel →
      ∃ out, getValueSpaceLoop fuel c st = some out := by
  induction fuel with
  | zero => intro c st hb; omega
  | succ fuel ih =>
    intro c st hb
    rcases h1 : nextRune st with ⟨c1, st1⟩
    have hle1 := nextRune_le_of_pair st c1 st1 h1
    simp only [getValueSpaceLoop, h1]
    split_ifs with hsp
    · by_cases hbl : c1 = ' ' ∨ c1 = '\t'
      · have hc1 : c1 ≠ '\n' := by rcases hbl with h | h <;> subst h <;> decide
        have hlt := nextRune_lt_of_pair st c1 st1 h1 hc1
        exact ih _ _ (by omega)
      · obtain _ | f := fuel
        · omega
        · exact ⟨(c1, st1), by simp [getValueSpaceLoop, hbl]⟩
    · exact ⟨_, rfl⟩

theorem getValue_total (fuel : Nat) (name : List Char) (st : PState)
    (hb : 2 * psize st + 2 ≤ fuel) : ∃ out, getValue fuel name st = some out := by
  obtain ⟨⟨c, name1, st1⟩, hk⟩ := getValueKeyLoop_total fuel name st (by omega)
  have hk' : psize st1 ≤ psize st := getValueKeyLoop_psize_le fuel _ _ _ _ _ hk
  obtain ⟨⟨c2, st2⟩, hs⟩ := getValueSpaceLoop_total fuel c st1 (by omega)
  have hs' : psize st2 ≤ psize st1 := getValueSpaceLoop_psize_le fuel _ _ _ _ hs
  simp only [getValue, hk, hs]
  split_ifs
  · exact ⟨_, rfl⟩
  · obtain ⟨⟨res, st3⟩, hp⟩ := parseValue_total fuel st2 (by omega)
    rw [hp]
    cases res
    · exact ⟨_, rfl⟩
    · exact ⟨_, rfl⟩
  · exact ⟨_, rfl⟩

theorem parseLoop_total (fuel : Nat) :
    ∀ comment cfg name st, 2 * psize st + 2 ≤ fuel →
      ∃ out, parseLoop fuel comment cfg name st = some out := by
  induction fuel with
  | zero => intro cm cfg name st hb; omega
  | succ fuel ih =>
    intro cm cfg name st hb
    rcases h1 : nextRune st with ⟨c, st1⟩
    have hle1 := nextRune_le_of_pair st c st1 h1
    simp only [parseLoop, h1]
    split_ifs with hn he hsk hcmt hsec halpha
    · exact ⟨_, rfl⟩
    · have he' : st1.eof = false := by simpa using he
      have hlt := nextRune_lt_of_pair_eof st c st1 h1 he'
      exact ih _ _ _ _ (by omega)
    · have hlt := nextRune_lt_of_pair st c st1 h1 hn
      exact ih _ _ _ _ (by omega)
    · have hlt := nextRune_lt_of_pair st c st1 h1 hn
      exact ih _ _ _ _ (by omega)
    · have hlt := nextRune_lt_of_pair st c st1 h1 hn
      obtain ⟨⟨res, st2⟩, hsec'⟩ := getSectionKey_total fuel st1 (by omega)
      have hm : psize st2 ≤ psize st1 := getSectionKey_psize_le fuel _ _ _ hsec'
      rw [hsec']
      cases res
      · exact ⟨_, rfl⟩
      · exact ih _ _ _ _ (by omega)
    · have hlt := nextRune_lt_of_pair st c st1 h1 hn
      obtain ⟨⟨res, key1, st2⟩, hgv⟩ := getValue_total fuel (name ++ [c]) st1 (by omega)
      have hm : psize st2 ≤ psize st1 := getValue_psize_le fuel _ _ _ _ _ hgv
      rw [hgv]
      cases res
      · exact ⟨_, rfl⟩
      · exact ih _ _ _ _ (by omega)
    · exact ⟨_, rfl⟩

theorem parse_total (bytes : List Char) :
    ∃ out, parse (2 * bytes.length + 4) ⟨bytes, 1, false⟩ = some out := by
  have : psize ⟨bytes, 1, false⟩ = bytes.length + 1 := by simp [psize]
  exact parseLoop_total _ false [] [] _ (by omega)

theorem char_le_iff (a b : Char) : a ≤ b ↔ a.toNat ≤ b.toNat := Iff.rfl

theorem char_eq_iff (a b : Char) : a = b ↔ a.toNat = b.toNat :=
  ⟨congrArg Char.toNat, fun h => Char.ext (UInt32.ext h)⟩

theorem isspace_toNat (c : Char) (h : isspace c = true) :
    c.toNat = 32 ∨ c.toNat = 9 ∨ c.toNat = 10 ∨ c.toNat = 11 ∨ c.toNat = 12 ∨
    c.toNat = 13 ∨ c.toNat = 133 ∨ c.toNat = 160 ∨ 5760 ≤ c.toNat := by
  simp only [isspace, Bool.or_eq_true, Bool.and_eq_true, decide_eq_true_eq,
    char_le_iff, char_eq_iff] at h
  have e1 : (' ').toNat = 32 := rfl
  have e2 : ('\t').toNat = 9 := rfl
  have e3 : ('\n').toNat = 10 := rfl
  have e4 : ('\x0b').toNat = 11 := rfl
  have e5 : ('\x0c').toNat = 12 := rfl
  have e6 : ('\r').toNat = 13 := rfl
  have e7 : ('\x85').toNat = 133 := rfl
  have e8 : ('\xa0').toNat = 160 := rfl
  have e9 : ('\u1680').toNat = 5760 := rfl
  have e10 : ('\u2000').toNat = 8192 := rfl
  have e11 : ('\u200a').toNat = 8202 := rfl
  have e12 : ('\u2028').toNat = 8232 := rfl
  have e13 : ('\u2029').toNat = 8233 := rfl
  have e14 : ('\u202f').toNat = 8239 := rfl
  have e15 : ('\u205f').toNat = 8287 := rfl
  have e16 : ('\u3000').toNat = 12288 := rfl
  omega

theorem isalpha_isspace (c : Char) (h : isalpha c = true) : isspace c = false := by
  by_contra h'
  have hs := isspace_toNat c (by simpa using h')
  simp only [isalpha, Bool.or_eq_true, Bool.and_eq_true, decide_eq_true_eq,
    char_le_iff, char_eq_iff] at h
  have e1 : ('A').toNat = 65 := rfl
  have e2 : ('Z').toNat = 90 := rfl
  have e3 : ('a').toNat = 97 := rfl
  have e4 : ('z').toNat = 122 := rfl
  have e5 : ('\xaa').toNat = 170 := rfl
  have e6 : ('\xb5').toNat = 181 := rfl
  have e7 : ('\xba').toNat = 186 := rfl
  have e8 : ('\xc0').toNat = 192 := rfl
  have e9 : ('\xd6').toNat = 214 := rfl
  have e10 : ('\xd8').toNat = 216 := rfl
  have e11 : ('\xf6').toNat = 246 := rfl
  have e12 : ('\xf8').toNat = 248 := rfl
  have e13 : ('\xff').toNat = 255 := rfl
  omega

theorem isnum_isspace (c : Char) (h : isnum c = true) : isspace c = false := by
  by_contra h'
  have hs := isspace_toNat c (by simpa using h')
  simp only [isnum, Bool.or_eq_true, Bool.and_eq_true, decide_eq_true_eq,
    char_le_iff, char_eq_iff] at h
  have e1 : ('0').toNat = 48 := rfl
  have e2 : ('9').toNat = 57 := rfl
  have e3 : ('\xb2').toNat = 178 := rfl
  have e4 : ('\xb3').toNat = 179 := rfl
  have e5 : ('\xb9').toNat = 185 := rfl
  have e6 : ('\xbc').toNat = 188 := rfl
  have e7 : ('\xbe').toNat = 190 := rfl
  omega

theorem iskeychar_isspace (c : Char) (h : iskeychar c = true) : isspace c = false := by
  simp only [iskeychar, isalnum, Bool.or_eq_true, decide_eq_true_eq] at h
  rcases h with (h | h) | h
  · exact isalpha_isspace c h
  · exact isnum_isspace c h
  · subst h; decide

theorem isspace_false_ne (c : Char) (h : isspace c = false) :
    c ≠ '\n' ∧ c ≠ '\r' ∧ c ≠ ' ' ∧ c ≠ '\t' := by
  refine ⟨?_, ?_, ?_, ?_⟩ <;> (rintro rfl; simp [isspace] at h)

/-- C9: with the input exhausted, the cursor sets the end-of-input flag
and returns a synthetic newline, but — contrary to the claim — the line
counter is returned unchanged, not incremented (the increment only
exists in the unreachable branch of goconfig.go lines 78-82). -/
theorem c9_exhausted_cursor_keeps_linenr (lin : Nat) (e : Bool) :
    nextRune ⟨[], lin, e⟩ = ('\n', ⟨[], lin, true⟩) :=
  nextRune_nil lin e

/-- C2: on inputs whose fault is detected at the synthetic end-of-input
newline, the reported line number is the physical line number minus one:
an unterminated quoted value on (physical) line 1 is reported at line 0,
and so is an unterminated extended section header. -/
theorem c2_synthetic_newline_line_number :
    Parse "a=\"x".data = ([], 0, some .unfinishedQuote) ∧
    Parse "[a \"bc".data = ([], 0, some .sectionNewLine) := ⟨rfl, rfl⟩

/-- C7: plain section components are lower-cased and so is the tail of a
key name, but the first character of a key keeps its case
(goconfig.go line 53 appends `c`, not `lower(c)`): `[Foo.Bar] baz = 1`
gives key `foo.bar.baz`, while `[foo.bar] BAZ = 1` gives
`foo.bar.Baz`, not `foo.bar.baz`; the quoted extended-section literal
keeps its case. -/
theorem c7_key_normalization :
    Parse "[Foo.Bar] baz = 1".data = ([("foo.bar.baz".data, "1".data)], 1, none) ∧
    Parse "[foo.bar] BAZ = 1".data = ([("foo.bar.Baz".data, "1".data)], 1, none) ∧
    Parse "[foo \"Bar\"] baz=1".data = ([("foo.Bar.baz".data, "1".data)], 1, none) :=
  ⟨rfl, rfl, rfl⟩

/-- C3 counterexample: a lone carriage return (not followed by a line
feed) is returned as `'\r'` itself, not normalized to a newline, and
the line counter is not incremented. -/
theorem c3_counterexample :
    nextRune ⟨['\r'], 1, false⟩ = ('\r', ⟨[], 1, false⟩) ∧ ('\r' : Char) ≠ '\n' :=
  ⟨rfl, by decide⟩

/-- C3 (amended): the cursor normalizes the two-character sequence
`\r\n` to a single `\n`, incrementing the line counter exactly once;
a bare `\n` also increments it exactly once; a lone `\r` (one not
followed by `\n`) is returned unchanged as `\r` with no increment, and
any other character is returned unchanged with no increment. -/
theorem c3_newline_normalization :
    (∀ l lin e, nextRune ⟨'\r' :: '\n' :: l, lin, e⟩ = ('\n', ⟨l, lin + 1, e⟩)) ∧
    (∀ l lin e, nextRune ⟨'\n' :: l, lin, e⟩ = ('\n', ⟨l, lin + 1, e⟩)) ∧
    (∀ l lin e, l.head? ≠ some '\n' → nextRune ⟨'\r' :: l, lin, e⟩ = ('\r', ⟨l, lin, e⟩)) ∧
    (∀ c l lin e, c ≠ '\r' → c ≠ '\n' → nextRune ⟨c :: l, lin, e⟩ = (c, ⟨l, lin, e⟩)) :=
  ⟨nextRune_crlf, nextRune_newline, nextRune_cr, nextRune_cons⟩

theorem c3_witness :
    nextRune ⟨'\r' :: '\n' :: ['x'], 3, false⟩ = ('\n', ⟨['x'], 4, false⟩) ∧
    nextRune ⟨'\n' :: ['x'], 3, false⟩ = ('\n', ⟨['x'], 4, false⟩) ∧
    nextRune ⟨'\r' :: ['x'], 3, false⟩ = ('\r', ⟨['x'], 3, false⟩) ∧
    nextRune ⟨'a' :: ['x'], 3, false⟩ = ('a', ⟨['x'], 3, false⟩) :=
  ⟨c3_newline_normalization.1 ['x'] 3 false,
   c3_newline_normalization.2.1 ['x'] 3 false,
   c3_newline_normalization.2.2.1 ['x'] 3 false (by decide),
   c3_newline_normalization.2.2.2 'a' ['x'] 3 false (by decide) (by decide)⟩

/-- C5 counterexample: inside the quoted part of an extended section
header, `\q` does not fail with `InvalidEscapeSequence`; the parse
succeeds and the `q` is kept verbatim. -/
theorem c5_counterexample :
    Parse "[s \"a\\qb\"]k=1".data = ([("s.aqb.k".data, "1".data)], 1, none) := rfl

/-- C5 (amended): inside the quoted part of an extended section header,
a backslash followed by any character other than a newline is unescaped
to that character verbatim (so `\"` gives `"`, `\\` gives `\`, and
likewise `\q` gives `q`); a backslash followed by a newline fails with
`SectionNewLine`. -/
theorem c5_section_escape :
    (∀ fuel name c l lin, c ≠ '\n' → c ≠ '\r' →
      getExtendedSectionKeyQuoted (fuel + 1) name ⟨'\\' :: c :: l, lin, false⟩ =
        getExtendedSectionKeyQuoted fuel (name ++ [c]) ⟨l, lin, false⟩) ∧
    (∀ fuel name l lin,
      getExtendedSectionKeyQuoted (fuel + 1) name ⟨'\\' :: '\n' :: l, lin, false⟩ =
        some (.error .sectionNewLine, ⟨l, lin, false⟩)) := by
  constructor
  · intro fuel name c l lin hn hr
    have h1 : nextRune ⟨'\\' :: c :: l, lin, false⟩ = ('\\', ⟨c :: l, lin, false⟩) :=
      nextRune_cons _ _ _ _ (by decide) (by decide)
    have h2 : nextRune ⟨c :: l, lin, false⟩ = (c, ⟨l, lin, false⟩) :=
      nextRune_cons _ _ _ _ hr hn
    simp [getExtendedSectionKeyQuoted, h1, h2, hn]
  · intro fuel name l lin
    have h1 : nextRune ⟨'\\' :: '\n' :: l, lin, false⟩ = ('\\', ⟨'\n' :: l, lin, false⟩) :=
      nextRune_cons _ _ _ _ (by decide) (by decide)
    have h2 : nextRune ⟨'\n' :: l, lin, false⟩ = ('\n', ⟨l, lin + 1, false⟩) :=
      nextRune_newline _ _ _
    simp [getExtendedSectionKeyQuoted, h1, h2]

theorem c5_witness :
    getExtendedSectionKeyQuoted 4 ("s.".data) ⟨'\\' :: 'q' :: "b\"]".data, 1, false⟩ =
      getExtendedSectionKeyQuoted 3 ("s.q".data) ⟨"b\"]".data, 1, false⟩ ∧
    getExtendedSectionKeyQuoted 4 ("s.".data) ⟨'\\' :: '\n' :: "x".data, 1, false⟩ =
      some (.error .sectionNewLine, ⟨"x".data, 1, false⟩) :=
  ⟨c5_section_escape.1 3 ("s.".data) 'q' ("b\"]".data) 1 (by decide) (by decide),
   c5_section_escape.2 3 ("s.".data) ("x".data) 1⟩

theorem iskeychar_or_dot_facts (c : Char) (h : iskeychar c = true ∨ c = '.') :
    isspace c = false ∧ c ≠ ']' ∧ c ≠ '\r' ∧ c ≠ '\n' ∧
    ¬ (¬ iskeychar c ∧ c ≠ '.') := by
  have hsp : isspace c = false := by
    rcases h with h | rfl
    · exact iskeychar_isspace c h
    · decide
  have hne := isspace_false_ne c hsp
  refine ⟨hsp, ?_, hne.2.1, hne.1, ?_⟩
  · rintro rfl
    rcases h with h | h <;> simp [iskeychar, isalnum, isalpha, isnum] at h
  · rintro ⟨hk, hd⟩
    rcases h with h | rfl
    · exact hk h
    · exact hd rfl

/-- C4 helper: scanning a plain section name that runs off the end of
the input fails with `UnexpectedEOF`. -/
theorem getSectionKeyLoop_eof_run (s : List Char) :
    ∀ fuel nm lin, (∀ c ∈ s, iskeychar c = true ∨ c = '.') →
      s.length + 1 ≤ fuel →
      getSectionKeyLoop fuel nm ⟨s, lin, false⟩ =
        some (.error .unexpectedEOF, ⟨[], lin, true⟩) := by
  induction s with
  | nil =>
    intro fuel nm lin _ hf
    obtain _ | fuel := fuel
    · omega
    · simp [getSectionKeyLoop, nextRune_nil]
  | cons c s' ih =>
    intro fuel nm lin hs hf
    obtain _ | fuel := fuel
    · simp at hf
    have hc := iskeychar_or_dot_facts c (hs c (by simp))
    have h1 : nextRune ⟨c :: s', lin, false⟩ = (c, ⟨s', lin, false⟩) :=
      nextRune_cons _ _ _ _ hc.2.2.1 hc.2.2.2.1
    simp only [getSectionKeyLoop, h1]
    rw [if_neg (by simp), if_neg hc.2.1, if_neg (by simp [hc.1]), if_neg hc.2.2.2.2]
    exact ih fuel _ lin (fun d hd => hs d (by simp [hd])) (by simp at hf ⊢; omega)

/-- C4 counterexample: input ending inside the quoted part of an
extended section header fails with `SectionNewLine` (triggered by the
synthetic end-of-input newline), not with `UnexpectedEOF`. -/
theorem c4_counterexample :
    Parse "[a \"bc".data = ([], 0, some .sectionNewLine) ∧
    Err.sectionNewLine ≠ Err.unexpectedEOF := ⟨rfl, by decide⟩

/-- C4 (amended): an input that ends while the plain part of a section
header is being scanned (every character after `[` is a key character
or `.`) fails with `UnexpectedEOF`; an input that ends in the extended
form instead fails with `SectionNewLine` (preamble or quoted part, via
the synthetic newline) or `MissingClosingBracket` (right after the
closing quote). -/
theorem c4_section_header_eof :
    (∀ s, (∀ c ∈ s, iskeychar c = true ∨ c = '.') →
      Parse ('[' :: s) = ([], 1, some .unexpectedEOF)) ∧
    Parse "[a \"bc".data = ([], 0, some .sectionNewLine) ∧
    Parse "[a \"b\"".data = ([], 1, some .missingClosingBracket) := by
  refine ⟨?_, rfl, rfl⟩
  intro s hs
  have h1 : nextRune ⟨'[' :: s, 1, false⟩ = ('[', ⟨s, 1, false⟩) :=
    nextRune_cons _ _ _ _ (by decide) (by decide)
  obtain ⟨f, hf, hfv⟩ : ∃ f, 2 * ('[' :: s).length + 4 = f + 1 ∧ f = 2 * s.length + 5 :=
    ⟨2 * s.length + 5, by simp [List.length_cons]; omega, rfl⟩
  have hrun := getSectionKeyLoop_eof_run s f [] 1 hs (by omega)
  unfold Parse parse
  rw [hf]
  simp only [parseLoop, h1]
  simp [getSectionKey, hrun, isspace]

theorem c4_witness :
    Parse "[ab".data = ([], 1, some .unexpectedEOF) :=
  c4_section_header_eof.1 "ab".data (by decide)

theorem isspace_true_ne (c : Char) (h : isspace c = true) :
    c ≠ '"' ∧ c ≠ '\\' ∧ c ≠ ';' ∧ c ≠ '#' := by
  refine ⟨?_, ?_, ?_, ?_⟩ <;> (rintro rfl; exact absurd h (by decide))

/-- C6 helper: unquoted whitespace before any value content is skipped
without effect (neither emitted nor counted). -/
theorem pv_leading_ws (ws : List Char)
    (hws : ∀ c ∈ ws, isspace c = true ∧ c ≠ '\n' ∧ c ≠ '\r') :
    ∀ fuel cm sp rest lin e,
      parseValueLoop (fuel + ws.length) false cm sp [] ⟨ws ++ rest, lin, e⟩ =
        parseValueLoop fuel false cm sp [] ⟨rest, lin, e⟩ := by
  induction ws with
  | nil => intro fuel cm sp rest lin e; simp
  | cons c ws' ih =>
    intro fuel cm sp rest lin e
    obtain ⟨hsp, hn, hr⟩ := hws c (by simp)
    have h1 : nextRune ⟨c :: (ws' ++ rest), lin, e⟩ = (c, ⟨ws' ++ rest, lin, e⟩) :=
      nextRune_cons _ _ _ _ hr hn
    have harith : fuel + (c :: ws').length = (fuel + ws'.length) + 1 := by
      simp [List.length_cons]; omega
    rw [show (c :: ws') ++ rest = c :: (ws' ++ rest) from rfl, harith]
    by_cases hcm : cm
    · simp only [parseValueLoop, h1, if_neg hn, if_pos hcm]
      exact ih (fun d hd => hws d (by simp [hd])) fuel cm sp rest lin e
    · simp only [parseValueLoop, h1, if_neg hn, if_neg hcm,
        if_pos (show isspace c = true ∧ ¬ (false = true) by simp [hsp])]
      simpa using ih (fun d hd => hws d (by simp [hd])) fuel cm sp rest lin e

/-- C6 helper: unquoted whitespace before the terminating newline is
dropped: the pending space count is never flushed. -/
theorem pv_trailing_ws (ws : List Char)
    (hws : ∀ c ∈ ws, isspace c = true ∧ c ≠ '\n' ∧ c ≠ '\r') :
    ∀ fuel cm sp v rest lin e, ws.length + 1 ≤ fuel →
      parseValueLoop fuel false cm sp v ⟨ws ++ '\n' :: rest, lin, e⟩ =
        some (.ok v, ⟨rest, lin + 1, e⟩) := by
  induction ws with
  | nil =>
    intro fuel cm sp v rest lin e hf
    obtain _ | fuel := fuel
    · omega
    simp [parseValueLoop, nextRune_newline]
  | cons c ws' ih =>
    intro fuel cm sp v rest lin e hf
    obtain _ | fuel := fuel
    · simp at hf
    obtain ⟨hsp, hn, hr⟩ := hws c (by simp)
    have h1 : nextRune ⟨c :: (ws' ++ '\n' :: rest), lin, e⟩ =
        (c, ⟨ws' ++ '\n' :: rest, lin, e⟩) := nextRune_cons _ _ _ _ hr hn
    rw [show (c :: ws') ++ '\n' :: rest = c :: (ws' ++ '\n' :: rest) from rfl]
    by_cases hcm : cm
    · simp only [parseValueLoop, h1, if_neg hn, if_pos hcm]
      exact ih (fun d hd => hws d (by simp [hd])) fuel cm sp v rest lin e
        (by simp at hf ⊢; omega)
    · simp only [parseValueLoop, h1, if_neg hn, if_neg hcm,
        if_pos (show isspace c = true ∧ ¬ (false = true) by simp [hsp])]
      exact ih (fun d hd => hws d (by simp [hd])) fuel cm _ v rest lin e
        (by simp at hf ⊢; omega)

/-- C6 helper: once the value is nonempty, a run of `k` unquoted
whitespace characters adds exactly `k` to the pending space counter. -/
theorem pv_ws_count (ws : List Char)
    (hws : ∀ c ∈ ws, isspace c = true ∧ c ≠ '\n' ∧ c ≠ '\r') :
    ∀ fuel sp v rest lin e, v ≠ [] →
      parseValueLoop (fuel + ws.length) false false sp v ⟨ws ++ rest, lin, e⟩ =
        parseValueLoop fuel false false (sp + ws.length) v ⟨rest, lin, e⟩ := by
  induction ws with
  | nil => intro fuel sp v rest lin e _; simp
  | cons c ws' ih =>
    intro fuel sp v rest lin e hv
    obtain ⟨hsp, hn, hr⟩ := hws c (by simp)
    have h1 : nextRune ⟨c :: (ws' ++ rest), lin, e⟩ = (c, ⟨ws' ++ rest, lin, e⟩) :=
      nextRune_cons _ _ _ _ hr hn
    have harith : fuel + (c :: ws').length = (fuel + ws'.length) + 1 := by
      simp [List.length_cons]; omega
    rw [show (c :: ws') ++ rest = c :: (ws' ++ rest) from rfl, harith]
    have hlen : v.length > 0 := List.length_pos.mpr hv
    simp only [parseValueLoop, h1, if_neg hn, if_neg (show ¬ (false = true) by simp),
      if_pos (show isspace c = true ∧ ¬ (false = true) by simp [hsp]), if_pos hlen]
    rw [ih (fun d hd => hws d (by simp [hd])) fuel (sp + 1) v rest lin e hv]
    have : sp + 1 + ws'.length = sp + (c :: ws').length := by
      simp [List.length_cons]; omega
    rw [this]

/-- C6 helper: an ordinary value character flushes the pending space
count as that many literal `' '` characters before being appended. -/
theorem pv_flush (c : Char) (hsp : isspace c = false) (hq : c ≠ '"')
    (hb : c ≠ '\\') (hsc : c ≠ ';') (hhc : c ≠ '#') :
    ∀ fuel sp v rest lin e,
      parseValueLoop (fuel + 1) false false sp v ⟨c :: rest, lin, e⟩ =
        parseValueLoop fuel false false 0 (v ++ List.replicate sp ' ' ++ [c])
          ⟨rest, lin, e⟩ := by
  intro fuel sp v rest lin e
  obtain ⟨hn, hr, -, -⟩ := isspace_false_ne c hsp
  have h1 : nextRune ⟨c :: rest, lin, e⟩ = (c, ⟨rest, lin, e⟩) :=
    nextRune_cons _ _ _ _ hr hn
  simp only [parseValueLoop, h1, if_neg hn, if_neg (show ¬ (false = true) by simp),
    if_neg (show ¬ (isspace c = true ∧ ¬ (false = true)) by simp [hsp]),
    if_neg hb, if_neg hq]
  rw [if_neg (by rintro ⟨-, h | h⟩; exact hsc h; exact hhc h)]

/-- C6 helper: inside quote mode, whitespace characters are appended to
the value literally (tabs stay tabs), with no counting or collapsing. -/
theorem pv_quote_ws (ws : List Char)
    (hws : ∀ c ∈ ws, isspace c = true ∧ c ≠ '\n' ∧ c ≠ '\r') :
    ∀ fuel v rest lin e,
      parseValueLoop (fuel + ws.length) true false 0 v ⟨ws ++ rest, lin, e⟩ =
        parseValueLoop fuel true false 0 (v ++ ws) ⟨rest, lin, e⟩ := by
  induction ws with
  | nil => intro fuel v rest lin e; simp
  | cons c ws' ih =>
    intro fuel v rest lin e
    obtain ⟨hsp, hn, hr⟩ := hws c (by simp)
    obtain ⟨hq, hb, hsc, hhc⟩ := isspace_true_ne c hsp
    have h1 : nextRune ⟨c :: (ws' ++ rest), lin, e⟩ = (c, ⟨ws' ++ rest, lin, e⟩) :=
      nextRune_cons _ _ _ _ hr hn
    have harith : fuel + (c :: ws').length = (fuel + ws'.length) + 1 := by
      simp [List.length_cons]; omega
    rw [show (c :: ws') ++ rest = c :: (ws' ++ rest) from rfl, harith]
    simp only [parseValueLoop, h1, if_neg hn, if_neg (show ¬ (false = true) by simp),
      if_neg (show ¬ (isspace c = true ∧ ¬ (true = true)) by simp),
      if_neg (show ¬ (¬ (true = true) ∧ (c = ';' ∨ c = '#')) by simp),
      if_neg hb, if_neg hq]
    rw [show v ++ List.replicate 0 ' ' ++ [c] = v ++ [c] by simp]
    rw [ih (fun d hd => hws d (by simp [hd])) fuel (v ++ [c]) rest lin e]
    simp

/-- C6: for values parsed without error, (1) leading unquoted whitespace
contributes nothing; (2) trailing unquoted whitespace before the
terminating newline contributes nothing; (3) an internal run of `k`
unquoted whitespace characters after a nonempty value adds exactly `k`
to the pending space counter, and (4) the next ordinary value character
flushes exactly that many literal space characters; (5) whitespace
inside quote mode is emitted literally, not counted or collapsed. -/
theorem c6_value_whitespace :
    (∀ ws, (∀ c ∈ ws, isspace c = true ∧ c ≠ '\n' ∧ c ≠ '\r') →
      ∀ fuel cm sp rest lin e,
        parseValueLoop (fuel + ws.length) false cm sp [] ⟨ws ++ rest, lin, e⟩ =
          parseValueLoop fuel false cm sp [] ⟨rest, lin, e⟩) ∧
    (∀ ws, (∀ c ∈ ws, isspace c = true ∧ c ≠ '\n' ∧ c ≠ '\r') →
      ∀ fuel cm sp v rest lin e, ws.length + 1 ≤ fuel →
        parseValueLoop fuel false cm sp v ⟨ws ++ '\n' :: rest, lin, e⟩ =
          some (.ok v, ⟨rest, lin + 1, e⟩)) ∧
    (∀ ws, (∀ c ∈ ws, isspace c = true ∧ c ≠ '\n' ∧ c ≠ '\r') →
      ∀ fuel sp v rest lin e, v ≠ [] →
        parseValueLoop (fuel + ws.length) false false sp v ⟨ws ++ rest, lin, e⟩ =
          parseValueLoop fuel false false (sp + ws.length) v ⟨rest, lin, e⟩) ∧
    (∀ c, isspace c = false → c ≠ '"' → c ≠ '\\' → c ≠ ';' → c ≠ '#' →
      ∀ fuel sp v rest lin e,
        parseValueLoop (fuel + 1) false false sp v ⟨c :: rest, lin, e⟩ =
          parseValueLoop fuel false false 0 (v ++ List.replicate sp ' ' ++ [c])
            ⟨rest, lin, e⟩) ∧
    (∀ ws, (∀ c ∈ ws, isspace c = true ∧ c ≠ '\n' ∧ c ≠ '\r') →
      ∀ fuel v rest lin e,
        parseValueLoop (fuel + ws.length) true false 0 v ⟨ws ++ rest, lin, e⟩ =
          parseValueLoop fuel true false 0 (v ++ ws) ⟨rest, lin, e⟩) :=
  ⟨fun ws hws => pv_leading_ws ws hws,
   fun ws hws => pv_trailing_ws ws hws,
   fun ws hws => pv_ws_count ws hws,
   fun c h1 h2 h3 h4 h5 => pv_flush c h1 h2 h3 h4 h5,
   fun ws hws => pv_quote_ws ws hws⟩

theorem c6_witness :
    parseValueLoop 7 false false 0 [] ⟨" \tx\n".data, 1, false⟩ =
      parseValueLoop 5 false false 0 [] ⟨"x\n".data, 1, false⟩ ∧
    parseValueLoop 3 false false 2 "x".data ⟨" \t".data ++ '\n' :: [], 1, false⟩ =
      some (.ok "x".data, ⟨[], 2, false⟩) ∧
    parseValueLoop 6 false false 0 "x".data ⟨" \ty\n".data, 1, false⟩ =
      parseValueLoop 4 false false 2 "x".data ⟨"y\n".data, 1, false⟩ ∧
    parseValueLoop 5 false false 2 "x".data ⟨"y\n".data, 1, false⟩ =
      parseValueLoop 4 false false 0 ("x".data ++ List.replicate 2 ' ' ++ ['y'])
        ⟨"\n".data, 1, false⟩ ∧
    parseValueLoop 6 true false 0 "x".data ⟨" \ty\"\n".data, 1, false⟩ =
      parseValueLoop 4 true false 0 ("x".data ++ " \t".data) ⟨"y\"\n".data, 1, false⟩ := by
  refine ⟨?_, ?_, ?_, ?_, ?_⟩
  · exact c6_value_whitespace.1 " \t".data (by decide) 5 false 0 "x\n".data 1 false
  · exact c6_value_whitespace.2.1 " \t".data (by decide) 3 false 2 "x".data [] 1 false
      (by decide)
  · exact c6_value_whitespace.2.2.1 " \t".data (by decide) 4 0 "x".data "y\n".data 1
      false (by decide)
  · exact c6_value_whitespace.2.2.2.1 'y' (by decide) (by decide) (by decide)
      (by decide) (by decide) 4 2 "x".data "\n".data 1 false
  · exact c6_value_whitespace.2.2.2.2 " \t".data (by decide) 4 "x".data
      "y\"\n".data 1 false

theorem plainKeyChar_ne (c : Char) (h : plainKeyChar c) :
    c ≠ '\r' ∧ c ≠ '\n' := by
  have := isspace_false_ne c (iskeychar_isspace c h.1)
  exact ⟨this.2.1, this.1⟩

theorem isalpha_ne_special (c : Char) (h : isalpha c = true) :
    c ≠ '\n' ∧ c ≠ '\r' ∧ c ≠ '#' ∧ c ≠ ';' ∧ c ≠ '[' := by
  have hs := isalpha_isspace c h
  have hne := isspace_false_ne c hs
  refine ⟨hne.1, hne.2.1, ?_, ?_, ?_⟩ <;> (rintro rfl; exact absurd h (by decide))

/-- Key-name loop run: lower-case-stable key characters are consumed
and appended; the first non-key character stops the loop. -/
theorem gvKeyLoop_run (ktail : List Char) :
    ∀ fuel nm d rest lin, (∀ c ∈ ktail, plainKeyChar c) →
      iskeychar d = false → d ≠ '\r' → d ≠ '\n' →
      ktail.length + 1 ≤ fuel →
      getValueKeyLoop fuel nm ⟨ktail ++ d :: rest, lin, false⟩ =
        some (d, nm ++ ktail, ⟨rest, lin, false⟩) := by
  induction ktail with
  | nil =>
    intro fuel nm d rest lin _ hd hr hn hf
    obtain _ | fuel := fuel
    · omega
    have h1 : nextRune ⟨[] ++ d :: rest, lin, false⟩ = (d, ⟨rest, lin, false⟩) :=
      nextRune_cons _ _ _ _ hr hn
    simp only [getValueKeyLoop, h1]
    simp [hd]
  | cons c kt ih =>
    intro fuel nm d rest lin hkt hd hr hn hf
    obtain _ | fuel := fuel
    · simp at hf
    obtain ⟨hkc, hlc⟩ := hkt c (by simp)
    obtain ⟨hcr, hcn⟩ := plainKeyChar_ne c ⟨hkc, hlc⟩
    have h1 : nextRune ⟨(c :: kt) ++ d :: rest, lin, false⟩ =
        (c, ⟨kt ++ d :: rest, lin, false⟩) := nextRune_cons _ _ _ _ hcr hcn
    simp only [getValueKeyLoop, h1]
    rw [if_neg (by simp), if_neg (by simp [hkc]), hlc]
    rw [ih fuel (nm ++ [c]) d rest lin (fun x hx => hkt x (by simp [hx])) hd hr hn
      (by simp at hf ⊢; omega)]
    simp

/-- Blank-skipping loop: a single blank followed by `=`. -/
theorem gvSpaceLoop_run_eq (fuel : Nat) (rest : List Char) (lin : Nat)
    (hf : 2 ≤ fuel) :
    getValueSpaceLoop fuel ' ' ⟨'=' :: rest, lin, false⟩ =
      some ('=', ⟨rest, lin, false⟩) := by
  obtain _ | _ | fuel := fuel
  · omega
  · omega
  have h1 : nextRune ⟨'=' :: rest, lin, false⟩ = ('=', ⟨rest, lin, false⟩) :=
    nextRune_cons _ _ _ _ (by decide) (by decide)
  simp [getValueSpaceLoop, h1]

/-- Blank-skipping loop: a non-blank character returns immediately. -/
theorem gvSpaceLoop_run_imm (fuel : Nat) (c : Char) (st : PState)
    (hc : ¬ (c = ' ' ∨ c = '\t')) (hf : 1 ≤ fuel) :
    getValueSpaceLoop fuel c st = some (c, st) := by
  obtain _ | fuel := fuel
  · omega
  simp [getValueSpaceLoop, hc]

/-- Value run: plain middle characters after a nonempty value are
appended with pending spaces flushed as spaces, and the final newline
returns the accumulated value. -/
theorem pv_plain_middle (s : List Char) :
    ∀ fuel sp v rest lin, v ≠ [] → (∀ c ∈ s, plainValChar c) →
      s.getLast? ≠ some ' ' → (s = [] → sp = 0) → s.length + 1 ≤ fuel →
      parseValueLoop fuel false false sp v ⟨s ++ '\n' :: rest, lin, false⟩ =
        some (.ok (v ++ List.replicate sp ' ' ++ s), ⟨rest, lin + 1, false⟩) := by
  induction s with
  | nil =>
    intro fuel sp v rest lin hv _ _ hsp hf
    obtain _ | fuel := fuel
    · omega
    rw [hsp rfl]
    simp [parseValueLoop, nextRune_newline]
  | cons c s' ih =>
    intro fuel sp v rest lin hv hs hlast _ hf
    obtain _ | fuel := fuel
    · simp at hf
    by_cases hc : c = ' '
    · subst hc
      obtain _ | ⟨a, t⟩ := s'
      · exact absurd hlast (by simp)
      have h1 : nextRune ⟨' ' :: ((a :: t) ++ '\n' :: rest), lin, false⟩ =
          (' ', ⟨(a :: t) ++ '\n' :: rest, lin, false⟩) :=
        nextRune_cons _ _ _ _ (by decide) (by decide)
      have hlen : v.length > 0 := List.length_pos.mpr hv
      rw [show (' ' :: (a :: t)) ++ '\n' :: rest = ' ' :: ((a :: t) ++ '\n' :: rest)
        from rfl]
      simp only [parseValueLoop, h1, if_neg (show ¬ (' ' = '\n') by decide),
        if_neg (show ¬ (false = true) by simp),
        if_pos (show isspace ' ' = true ∧ ¬ (false = true) by simp [isspace]),
        if_pos hlen]
      rw [ih fuel (sp + 1) v rest lin hv (fun x hx => hs x (by simp [hx]))
        (by simpa using hlast) (by simp) (by simp at hf ⊢; omega)]
      rw [show List.replicate (sp + 1) ' ' = List.replicate sp ' ' ++ [' ']
        by rw [List.replicate_succ']]
      simp
    · have hpc := hs c (by simp)
      have hpc' : isspace c = false ∧ c ≠ '"' ∧ c ≠ '\\' ∧ c ≠ ';' ∧ c ≠ '#' := by
        rcases hpc with h | h
        · exact h
        · exact absurd h hc
      obtain ⟨hcsp, hcq, hcb, hcsc, hchc⟩ := hpc'
      rw [show (c :: s') ++ '\n' :: rest = c :: (s' ++ '\n' :: rest) from rfl]
      rw [pv_flush c hcsp hcq hcb hcsc hchc fuel sp v (s' ++ '\n' :: rest) lin false]
      by_cases hs' : s' = []
      · subst hs'
        obtain _ | fuel := fuel
        · simp at hf
        simp [parseValueLoop, nextRune_newline]
      · rw [ih fuel 0 (v ++ List.replicate sp ' ' ++ [c]) rest lin (by simp)
          (fun x hx => hs x (by simp [hx]))
          (by obtain _ | ⟨a, t⟩ := s'
              · exact absurd rfl hs'
              · simpa using hlast)
          (fun h => absurd h hs') (by simp at hf ⊢; omega)]
        simp

/-- Value run: a plain value preceded by one blank and closed by a
newline parses to exactly itself. -/
theorem parseValue_plain_run (v : List Char) (hv : plainValue v) (fuel : Nat)
    (rest : List Char) (lin : Nat) (hf : v.length + 3 ≤ fuel) :
    parseValue fuel ⟨' ' :: (v ++ '\n' :: rest), lin, false⟩ =
      some (.ok v, ⟨rest, lin + 1, false⟩) := by
  obtain ⟨hchars, hhead, hlast⟩ := hv
  obtain _ | fuel := fuel
  · omega
  unfold parseValue
  rw [show (fuel + 1 : Nat) = fuel + [' '].length by simp]
  rw [show (' ' :: (v ++ '\n' :: rest)) = [' '] ++ (v ++ '\n' :: rest) from rfl]
  rw [pv_leading_ws [' '] (by decide) fuel false 0 (v ++ '\n' :: rest) lin false]
  obtain _ | ⟨c, v'⟩ := v
  · obtain _ | fuel := fuel
    · omega
    simp [parseValueLoop, nextRune_newline]
  · have hpc' : isspace c = false ∧ c ≠ '"' ∧ c ≠ '\\' ∧ c ≠ ';' ∧ c ≠ '#' := by
      rcases hchars c (by simp) with h | h
      · exact h
      · exact absurd (show (c :: v').head? = some ' ' by simp [h]) hhead
    obtain ⟨hcsp, hcq, hcb, hcsc, hchc⟩ := hpc'
    obtain _ | fuel := fuel
    · omega
    rw [show (c :: v') ++ '\n' :: rest = c :: (v' ++ '\n' :: rest) from rfl]
    rw [pv_flush c hcsp hcq hcb hcsc hchc fuel 0 [] (v' ++ '\n' :: rest) lin false]
    by_cases hv' : v' = []
    · subst hv'
      obtain _ | fuel := fuel
      · omega
      simp [parseValueLoop, nextRune_newline]
    · rw [pv_plain_middle v' fuel 0 ([] ++ List.replicate 0 ' ' ++ [c]) rest lin
        (by simp) (fun x hx => hchars x (by simp [hx]))
        (by obtain _ | ⟨a, t⟩ := v'
            · exact absurd rfl hv'
            · simpa using hlast)
        (fun h => absurd h hv') (by simp at hf ⊢; omega)]
      simp

/-- `getValue` run: a lower-case-stable key tail, ` = `, and a plain
value: full success with the value and the completed key name. -/
theorem getValue_run (ktail v : List Char)
    (hkt : ∀ c ∈ ktail, plainKeyChar c) (hv : plainValue v) :
    ∀ fuel nm lin rest, ktail.length + v.length + 4 ≤ fuel →
      getValue fuel nm ⟨ktail ++ ' ' :: '=' :: ' ' :: (v ++ '\n' :: rest), lin, false⟩ =
        some (.ok v, nm ++ ktail, ⟨rest, lin + 1, false⟩) := by
  intro fuel nm lin rest hf
  have hkey := gvKeyLoop_run ktail fuel nm ' ' ('=' :: ' ' :: (v ++ '\n' :: rest)) lin
    hkt (by decide) (by decide) (by decide) (by omega)
  have hsp := gvSpaceLoop_run_eq fuel (' ' :: (v ++ '\n' :: rest)) lin (by omega)
  have hpv := parseValue_plain_run v hv fuel rest lin (by omega)
  simp only [getValue, hkey, hsp]
  rw [if_pos (show ('=' : Char) ≠ '\n' by decide), if_neg (show ¬ (('=' : Char) ≠ '=') by simp)]
  rw [hpv]

/-- Driver run: one serialized `key = value` line is consumed in one
driver iteration, inserting the pair and advancing one line. -/
theorem parseLoop_entry (k v : List Char) (hk : plainKey k) (hv : plainValue v) :
    ∀ fuel cfg lin rest, k.length + v.length + 4 ≤ fuel →
      parseLoop (fuel + 1) false cfg [] ⟨serEntry k v ++ rest, lin, false⟩ =
        parseLoop fuel false (insertKV cfg k v) [] ⟨rest, lin + 1, false⟩ := by
  intro fuel cfg lin rest hf
  obtain _ | ⟨c, ktail⟩ := k
  · exact absurd hk (by simp [plainKey])
  obtain ⟨hca, hkt⟩ := hk
  have hne := isalpha_ne_special c hca
  have hsp : isspace c = false := isalpha_isspace c hca
  have hser : serEntry (c :: ktail) v ++ rest =
      c :: (ktail ++ ' ' :: '=' :: ' ' :: (v ++ '\n' :: rest)) := by
    simp [serEntry]
  rw [hser]
  have h1 : nextRune ⟨c :: (ktail ++ ' ' :: '=' :: ' ' :: (v ++ '\n' :: rest)), lin, false⟩ =
      (c, ⟨ktail ++ ' ' :: '=' :: ' ' :: (v ++ '\n' :: rest), lin, false⟩) :=
    nextRune_cons _ _ _ _ hne.2.1 hne.1
  simp only [parseLoop, h1]
  rw [if_neg hne.1, if_neg (by simp [hsp]),
    if_neg (by rintro (h | h); exact hne.2.2.1 h; exact hne.2.2.2.1 h),
    if_neg hne.2.2.2.2, if_neg (by simp [hca])]
  rw [getValue_run ktail v hkt hv fuel ([] ++ [c]) lin rest (by simp at hf ⊢; omega)]
  simp

/-- Driver run: an empty remaining input terminates successfully at the
synthetic newline. -/
theorem parseLoop_final (fuel : Nat) (cfg : Cfg) (name : List Char) (lin : Nat) :
    parseLoop (fuel + 1) false cfg name ⟨[], lin, false⟩ =
      some (cfg, none, ⟨[], lin, true⟩) := by
  simp [parseLoop, nextRune_nil]

theorem serEntry_length (k v : List Char) :
    (serEntry k v).length = k.length + v.length + 4 := by
  simp [serEntry]; omega

theorem serialize_length_ge (m : Cfg) : m.length ≤ (serialize m).length := by
  induction m with
  | nil => simp [serialize]
  | cons p m' ih => simp [serialize, serEntry_length]; omega

/-- Driver run: a block of serialized plain entries is consumed,
folding the insertions left to right, taking one driver iteration and
one line per entry. -/
theorem parseLoop_serialize (m : Cfg) :
    ∀ fuel cfg lin rest, (∀ p ∈ m, plainKey p.1 ∧ plainValue p.2) →
      (serialize m).length + 1 ≤ fuel →
      parseLoop fuel false cfg [] ⟨serialize m ++ rest, lin, false⟩ =
        parseLoop (fuel - m.length) false
          (m.foldl (fun c p => insertKV c p.1 p.2) cfg) [] ⟨rest, lin + m.length, false⟩ := by
  induction m with
  | nil => intro fuel cfg lin rest _ _; simp [serialize]
  | cons p m' ih =>
    intro fuel cfg lin rest hplain hf
    rcases p with ⟨k, v⟩
    have hsl : serialize ((k, v) :: m') = serEntry k v ++ serialize m' := rfl
    rw [hsl] at hf ⊢
    obtain _ | fuel := fuel
    · simp at hf
    rw [List.append_assoc]
    rw [parseLoop_entry k v (hplain (k, v) (by simp)).1 (hplain (k, v) (by simp)).2
      fuel cfg lin (serialize m' ++ rest)
      (by have hsel := serEntry_length k v
          rw [List.length_append, hsel] at hf; omega)]
    rw [ih fuel (insertKV cfg k v) (lin + 1) rest
      (fun q hq => hplain q (by simp [hq]))
      (by have hsel := serEntry_length k v
          rw [List.length_append, hsel] at hf; omega)]
    have e1 : fuel - m'.length = fuel + 1 - ((k, v) :: m').length := by
      simp [List.length_cons]
    have e2 : lin + 1 + m'.length = lin + ((k, v) :: m').length := by
      simp [List.length_cons]; omega
    rw [e1, e2]
    rfl

theorem insertKV_nodup (cfg : Cfg) (k v : List Char)
    (h : (keysOf cfg).Nodup) : (keysOf (insertKV cfg k v)).Nodup := by
  unfold insertKV
  split_ifs with hany
  · have heq : keysOf (cfg.map fun p => if p.1 == k then (k, v) else p) = keysOf cfg := by
      unfold keysOf
      rw [List.map_map]
      apply List.map_congr_left
      intro p hp
      by_cases hpk : p.1 == k
      · simp only [Function.comp_apply, if_pos hpk]
        exact (eq_of_beq hpk).symm
      · have hpk' : p.1 ≠ k := by simpa using hpk
        simp [Function.comp_apply, hpk']
    rw [heq]; exact h
  · have hk : ∀ p ∈ cfg, p.1 ≠ k := by
      intro p hp hpk
      exact hany (List.any_eq_true.mpr ⟨p, hp, by simp [hpk]⟩)
    simp only [keysOf, List.map_append, List.map_cons, List.map_nil]
    rw [List.nodup_append]
    refine ⟨h, by simp, ?_⟩
    intro a ha hb
    have hak : a = k := by simpa using hb
    subst hak
    obtain ⟨p, hp, hpa⟩ := List.mem_map.mp ha
    exact hk p hp hpa

theorem insertKV_fresh (cfg : Cfg) (k v : List Char) (h : k ∉ keysOf cfg) :
    insertKV cfg k v = cfg ++ [(k, v)] := by
  unfold insertKV
  rw [if_neg]
  intro hcontra
  obtain ⟨p, hp, hpk⟩ := List.any_eq_true.mp hcontra
  exact h (List.mem_map.mpr ⟨p, hp, eq_of_beq (by simpa using hpk)⟩)

theorem foldl_insertKV (m : Cfg) : ∀ cfg, (keysOf m).Nodup →
    (∀ kk ∈ keysOf m, kk ∉ keysOf cfg) →
    m.foldl (fun c p => insertKV c p.1 p.2) cfg = cfg ++ m := by
  induction m with
  | nil => intro cfg _ _; simp
  | cons p m' ih =>
    intro cfg hnd hdisj
    rcases p with ⟨k, v⟩
    have hkmem : k ∉ keysOf cfg := hdisj k (by simp [keysOf])
    have hnd' : (keysOf ((k, v) :: m')).Nodup = (k :: keysOf m').Nodup := rfl
    rw [hnd'] at hnd
    rw [List.foldl_cons]
    rw [insertKV_fresh cfg k v hkmem]
    rw [ih (cfg ++ [(k, v)]) (List.Nodup.of_cons hnd) ?_]
    · simp
    · intro kk hkk
      have hkkk : kk ≠ k := by
        intro h
        subst h
        exact (List.nodup_cons.mp hnd).1 hkk
      have hkkc : kk ∉ keysOf cfg := hdisj kk (by simp [keysOf] at hkk ⊢; tauto)
      simp only [keysOf, List.map_append, List.map_cons, List.map_nil, List.mem_append]
      rintro (hc | hc)
      · exact hkkc hc
      · simp at hc; exact hkkk hc

/-- The driver never duplicates keys: map updates are in place. -/
theorem parseLoop_nodup (fuel : Nat) :
    ∀ cm cfg nm st cfg' e st', parseLoop fuel cm cfg nm st = some (cfg', e, st') →
      (keysOf cfg).Nodup → (keysOf cfg').Nodup := by
  induction fuel with
  | zero => intro cm cfg nm st cfg' e st' h; simp [parseLoop] at h
  | succ fuel ih =>
    intro cm cfg nm st cfg' e st' h hnd
    rcases h1 : nextRune st with ⟨c, st1⟩
    simp only [parseLoop, h1] at h
    split_ifs at h
    · simp only [Option.some.injEq, Prod.mk.injEq] at h
      obtain ⟨rfl, -, -⟩ := h; exact hnd
    · exact ih _ _ _ _ _ _ _ h hnd
    · exact ih _ _ _ _ _ _ _ h hnd
    · exact ih _ _ _ _ _ _ _ h hnd
    · rcases hsec : getSectionKey fuel st1 with _ | ⟨res, st2⟩
      · rw [hsec] at h; cases h
      rw [hsec] at h
      cases res
      · simp only [Option.some.injEq, Prod.mk.injEq] at h
        obtain ⟨rfl, -, -⟩ := h; exact hnd
      · exact ih _ _ _ _ _ _ _ h hnd
    · rcases hgv : getValue fuel (nm ++ [c]) st1 with _ | ⟨res, key1, st2⟩
      · rw [hgv] at h; cases h
      rw [hgv] at h
      cases res
      · simp only [Option.some.injEq, Prod.mk.injEq] at h
        obtain ⟨rfl, -, -⟩ := h; exact hnd
      · exact ih _ _ _ _ _ _ _ h (insertKV_nodup cfg _ _ hnd)
    · simp only [Option.some.injEq, Prod.mk.injEq] at h
      obtain ⟨rfl, -, -⟩ := h; exact hnd

/-- C1 counterexample: `[s]\na=1` parses successfully to the mapping
`{s.a ↦ 1}`, but serializing that mapping as the single line
`s.a = 1` and re-parsing fails with `InvalidKeyChar` (a dot is not a
key character outside a section header), so the round trip does not
yield the original mapping. -/
theorem c1_counterexample :
    Parse "[s]\na=1".data = ([("s.a".data, "1".data)], 2, none) ∧
    serialize [("s.a".data, "1".data)] = "s.a = 1\n".data ∧
    Parse "s.a = 1\n".data = ([], 1, some .invalidKeyChar) := ⟨rfl, rfl, rfl⟩

/-- C1 (amended): the serialize-then-re-parse round trip yields the
original mapping when every key is plain (a letter followed by
lower-case-stable key characters — in particular no dots, so no
section was involved) and every value is plain (no quotes, backslashes,
comment characters, or whitespace other than internal spaces, and no
leading/trailing space). -/
theorem c1_roundtrip_plain (bytes : List Char) (m : Cfg) (l : Nat)
    (hp : Parse bytes = (m, l, none))
    (hplain : ∀ p ∈ m, plainKey p.1 ∧ plainValue p.2) :
    Parse (serialize m) = (m, m.length + 1, none) := by
  obtain ⟨⟨cfg, err, st⟩, hsome⟩ := parse_total bytes
  have hP : Parse bytes = (cfg, st.linenr, err) := by
    unfold Parse; rw [hsome]
  rw [hp] at hP
  simp only [Prod.mk.injEq] at hP
  obtain ⟨heq, -, herr⟩ := hP
  rw [← heq] at hsome
  unfold parse at hsome
  have hnd : (keysOf m).Nodup :=
    parseLoop_nodup _ _ _ _ _ _ _ _ hsome (by simp [keysOf])
  unfold Parse parse
  have hser := parseLoop_serialize m (2 * (serialize m).length + 4) [] 1 []
    hplain (by omega)
  rw [show serialize m ++ ([] : List Char) = serialize m by simp] at hser
  rw [hser]
  have hfold : m.foldl (fun c p => insertKV c p.1 p.2) [] = m := by
    have h := foldl_insertKV m [] hnd (by simp [keysOf])
    simpa using h
  rw [hfold]
  have hge := serialize_length_ge m
  obtain ⟨g, hg⟩ : ∃ g, 2 * (serialize m).length + 4 - m.length = g + 1 :=
    ⟨2 * (serialize m).length + 3 - m.length, by omega⟩
  rw [hg, parseLoop_final]
  simp [Nat.add_comm]

theorem c1_witness :
    Parse "a = 1\nb = x y\n".data =
      ([("a".data, "1".data), ("b".data, "x y".data)], 3, none) ∧
    Parse (serialize [("a".data, "1".data), ("b".data, "x y".data)]) =
      ([("a".data, "1".data), ("b".data, "x y".data)], 3, none) := by
  refine ⟨by rfl, ?_⟩
  exact c1_roundtrip_plain "a = 1\nb = x y\n".data
    [("a".data, "1".data), ("b".data, "x y".data)] 3 (by rfl) (by decide)

theorem pv_bad_escape (fuel : Nat) (rest : List Char) (lin : Nat) (hf : 1 ≤ fuel) :
    parseValue fuel ⟨'\\' :: 'q' :: rest, lin, false⟩ =
      some (.error .invalidEscapeSequence, ⟨rest, lin, false⟩) := by
  obtain _ | fuel := fuel
  · omega
  have h1 : nextRune ⟨'\\' :: 'q' :: rest, lin, false⟩ =
      ('\\', ⟨'q' :: rest, lin, false⟩) :=
    nextRune_cons _ _ _ _ (by decide) (by decide)
  have h2 : nextRune ⟨'q' :: rest, lin, false⟩ = ('q', ⟨rest, lin, false⟩) :=
    nextRune_cons _ _ _ _ (by decide) (by decide)
  unfold parseValue
  simp [parseValueLoop, h1, h2, isspace]

theorem parseLoop_bad_escape (k : List Char) (hk : plainKey k) :
    ∀ fuel cfg lin suffix, k.length + 4 ≤ fuel →
      parseLoop fuel false cfg [] ⟨k ++ '=' :: '\\' :: 'q' :: suffix, lin, false⟩ =
        some (cfg, some .invalidEscapeSequence, ⟨suffix, lin, false⟩) := by
  intro fuel cfg lin suffix hf
  obtain _ | ⟨c, ktail⟩ := k
  · exact absurd hk (by simp [plainKey])
  obtain ⟨hca, hkt⟩ := hk
  obtain _ | fuel := fuel
  · simp at hf
  have hne := isalpha_ne_special c hca
  have hsp : isspace c = false := isalpha_isspace c hca
  have hgv : getValue fuel ([] ++ [c]) ⟨ktail ++ '=' :: '\\' :: 'q' :: suffix, lin, false⟩ =
      some (.error .invalidEscapeSequence, ([] ++ [c]) ++ ktail, ⟨suffix, lin, false⟩) := by
    have hkey := gvKeyLoop_run ktail fuel ([] ++ [c]) '=' ('\\' :: 'q' :: suffix) lin
      hkt (by decide) (by decide) (by decide) (by simp at hf ⊢; omega)
    have hsl := gvSpaceLoop_run_imm fuel '=' ⟨'\\' :: 'q' :: suffix, lin, false⟩
      (by decide) (by simp at hf ⊢; omega)
    have hpv := pv_bad_escape fuel suffix lin (by simp at hf ⊢; omega)
    simp only [getValue, hkey, hsl]
    rw [if_pos (show ('=' : Char) ≠ '\n' by decide),
      if_neg (show ¬ (('=' : Char) ≠ '=') by simp)]
    rw [hpv]
  rw [show (c :: ktail) ++ '=' :: '\\' :: 'q' :: suffix =
    c :: (ktail ++ '=' :: '\\' :: 'q' :: suffix) from rfl]
  have h1 : nextRune ⟨c :: (ktail ++ '=' :: '\\' :: 'q' :: suffix), lin, false⟩ =
      (c, ⟨ktail ++ '=' :: '\\' :: 'q' :: suffix, lin, false⟩) :=
    nextRune_cons _ _ _ _ hne.2.1 hne.1
  simp only [parseLoop, h1]
  rw [if_neg hne.1, if_neg (by simp [hsp]),
    if_neg (by rintro (h | h); exact hne.2.2.1 h; exact hne.2.2.2.1 h),
    if_neg hne.2.2.2.2, if_neg (by simp [hca])]
  rw [hgv]

/-- C8: when an input consists of completely parsed plain entries
followed by an entry whose value contains the invalid escape `\q`, the
returned mapping is exactly the completed entries — the entry being
parsed when the error occurs is not inserted — and everything after the
fault (an arbitrary suffix) is ignored: the parse stops at the first
error with no resynchronization. -/
theorem c8_partial_mapping (m : Cfg) (k : List Char) (suffix : List Char)
    (hplain : ∀ p ∈ m, plainKey p.1 ∧ plainValue p.2)
    (hnd : (keysOf m).Nodup) (hk : plainKey k) :
    Parse (serialize m ++ (k ++ '=' :: '\\' :: 'q' :: suffix)) =
      (m, m.length + 1, some .invalidEscapeSequence) := by
  unfold Parse parse
  have hser := parseLoop_serialize m
    (2 * (serialize m ++ (k ++ '=' :: '\\' :: 'q' :: suffix)).length + 4) [] 1
    (k ++ '=' :: '\\' :: 'q' :: suffix) hplain
    (by simp [List.length_append]; omega)
  rw [hser]
  have hfold : m.foldl (fun c p => insertKV c p.1 p.2) [] = m := by
    have h := foldl_insertKV m [] hnd (by simp [keysOf])
    simpa using h
  rw [hfold]
  have hge := serialize_length_ge m
  rw [parseLoop_bad_escape k hk _ m (1 + m.length) suffix
    (by simp [List.length_append]; omega)]
  simp [Nat.add_comm]

theorem c8_witness :
    Parse (serialize [("a".data, "1".data)] ++
        ("b".data ++ '=' :: '\\' :: 'q' :: "\nc=2\n".data)) =
      ([("a".data, "1".data)], 2, some .invalidEscapeSequence) :=
  c8_partial_mapping [("a".data, "1".data)] "b".data "\nc=2\n".data
    (by decide) (by decide) (by decide)

theorem nextRune_consumes (st : PState) (h : st.runes ≠ []) :
    psize (nextRune st).2 < psize st := by
  rcases st with ⟨runes, lin, e⟩
  cases runes with
  | nil => simp at h
  | cons c l =>
    by_cases hr : c = '\r'
    · subst hr
      cases l with
      | nil =>
        rw [nextRune_cr _ _ _ (by simp)]
        cases e <;> simp [psize]
      | cons a l' =>
        by_cases ha : a = '\n'
        · subst ha; rw [nextRune_crlf]; cases e <;> simp [psize] <;> omega
        · rw [nextRune_cr _ _ _ (by simpa using ha)]; cases e <;> simp [psize]
    · by_cases hn : c = '\n'
      · subst hn; rw [nextRune_newline]; cases e <;> simp [psize]
      · rw [nextRune_cons _ _ _ _ hr hn]; cases e <;> simp [psize]

/-- C10: the parse terminates on every finite input.  The cursor never
grows the measure (remaining code points plus the pending synthetic
newline); it strictly shrinks it whenever input remains; when the input
is exhausted it signals end-of-input with the synthetic newline on
which every loop returns; and with the canonical fuel of `Parse`
(one unit per loop iteration) the driver always produces a result,
so the fuel device never cuts a run short. -/
theorem c10_termination :
    (∀ st, psize (nextRune st).2 ≤ psize st) ∧
    (∀ st, st.runes ≠ [] → psize (nextRune st).2 < psize st) ∧
    (∀ st, st.runes = [] → nextRune st = ('\n', { st with eof := true })) ∧
    (∀ bytes, ∃ out, parse (2 * bytes.length + 4) ⟨bytes, 1, false⟩ = some out) := by
  refine ⟨nextRune_psize_le, nextRune_consumes, ?_, parse_total⟩
  intro st h
  rcases st with ⟨runes, lin, e⟩
  cases h
  exact nextRune_nil lin e

theorem c10_witness :
    psize (nextRune ⟨['a'], 1, false⟩).2 < psize ⟨['a'], 1, false⟩ ∧
    nextRune ⟨[], 5, false⟩ = ('\n', ⟨[], 5, true⟩) :=
  ⟨c10_termination.2.1 ⟨['a'], 1, false⟩ (by decide),
   c10_termination.2.2.1 ⟨[], 5, false⟩ rfl⟩

